import Mathlib

/-!
Verification of the streaming agent-orchestration subsystem of the
`discord-bot` repository (source file `src/handlers/agent.py`).

The Python source is shallowly embedded: pure functions become Lean
functions over `List Char` / `String`; the asynchronous producer and
consumer tasks become explicit functions over the ordered list of items
placed on the inter-task queue; external collaborators (the language
model, DuckDuckGo, CTFtime, asyncio timers) are abstracted as explicit
oracle arguments, while every control-flow decision taken by the
repository code itself is translated from the source.
-/

namespace DiscordBot

/-! ## Python string primitives

The embedding works on `List Char`.  The helpers below mirror the exact
Python primitives used by `agent.py`: `str.strip`, `str.split(sep)` for a
one-character separator, `sep.join`, and the `in` substring test.
-/

/-- Characters stripped by Python `str.strip()` (ASCII whitespace). -/
def isPyWs (c : Char) : Bool :=
  c = ' ' || c = '\t' || c = '\n' || c = '\r' || c = '\x0b' || c = '\x0c'

/-- Python `s.strip()`: drop leading and trailing whitespace. -/
def pyStrip (cs : List Char) : List Char :=
  ((cs.dropWhile isPyWs).reverse.dropWhile isPyWs).reverse

/-- Helper for `splitOnChar`: returns the first piece and the remaining
pieces separately, so the split is never empty by construction. -/
def splitOnCharP (sep : Char) : List Char → List Char × List (List Char)
  | [] => ([], [])
  | c :: rest =>
    let r := splitOnCharP sep rest
    if c = sep then ([], r.1 :: r.2) else (c :: r.1, r.2)

/-- Python `s.split(sep)` for a single-character separator: splits on every
occurrence of `sep`, keeping empty pieces, and always returns at least one
piece. -/
def splitOnChar (sep : Char) (cs : List Char) : List (List Char) :=
  (splitOnCharP sep cs).1 :: (splitOnCharP sep cs).2

/-- Python `sep.join(pieces)` for a single-character separator. -/
def joinOnChar (sep : Char) : List (List Char) → List Char
  | [] => []
  | [l] => l
  | l :: ls => l ++ sep :: joinOnChar sep ls

/-- Python substring test `needle in hay`. -/
def isInfixL (needle : List Char) : List Char → Bool
  | [] => needle.isEmpty
  | c :: t => needle.isPrefixOf (c :: t) || isInfixL needle t

/-- Python `needle in hay` on lowercased strings, as used by the error
classifiers (`str(exc).lower()`). -/
def containsLower (hay needle : String) : Bool :=
  isInfixL needle.data (hay.data.map Char.toLower)

/-! ## Output Formatter: `strip_tables` (agent.py lines 581-613)

A line-by-line state machine over the lines of the input.  State:
`inTable` (a separator row has been seen) and `headers` (cells of the
first pipe-delimited row seen; the empty list means unset, matching the
Python truthiness test `not headers` since a parsed cell list is never
empty).
-/

/-- Character class of the separator-row regular expression
`^\|[-| :]+\|$`. -/
def isSepChar (c : Char) : Bool :=
  c = '-' || c = '|' || c = ' ' || c = ':'

/-- Python `re.match(r"^\|[-| :]+\|$", stripped)`: first and last character
are pipes and the nonempty middle consists solely of `-`, `|`, space and
`:`. -/
def isSepRow (cs : List Char) : Bool :=
  cs.head? == some '|' && cs.getLast? == some '|' &&
    !((cs.drop 1).dropLast.isEmpty) && (cs.drop 1).dropLast.all isSepChar

/-- Python `stripped.startswith("|") and stripped.endswith("|")`. -/
def isPipeRow (cs : List Char) : Bool :=
  cs.head? == some '|' && cs.getLast? == some '|'

/-- Python `[c.strip() for c in stripped[1:-1].split("|")]`. -/
def cellsOf (stripped : List Char) : List (List Char) :=
  (splitOnChar '|' ((stripped.drop 1).dropLast)).map pyStrip

/-- Python `", ".join(parts)`. -/
def joinParts : List (List Char) → List Char
  | [] => []
  | [p] => p
  | p :: ps => p ++ ',' :: ' ' :: joinParts ps

/-- The `parts` list of a data row: Python
`[f"**{h}:** {v}" for h, v in zip(headers, cells) if v]` when the header
count matches (`if headers and len(cells) == len(headers)`), and
`[c for c in cells if c]` otherwise. -/
def bulletParts (headers cells : List (List Char)) : List (List Char) :=
  if !headers.isEmpty && headers.length == cells.length then
    (headers.zip cells).filterMap fun hv =>
      if hv.2.isEmpty then none
      else some ("**".data ++ hv.1 ++ ":** ".data ++ hv.2)
  else
    cells.filter fun c => !c.isEmpty

/-- Python bullet construction for a data row: `"- " + ", ".join(parts)`. -/
def bulletOf (headers cells : List (List Char)) : List Char :=
  "- ".data ++ joinParts (bulletParts headers cells)

/-- The loop body of `strip_tables`: processes the remaining lines given
the current `inTable` / `headers` state and returns the emitted result
lines.  A separator row sets `inTable` and is dropped; a pipe-delimited
row becomes the header row (dropped) when no table context exists yet and
a bullet otherwise; any other line resets the state and is passed through
unchanged. -/
def processLines (inTable : Bool) (headers : List (List Char)) :
    List (List Char) → List (List Char)
  | [] => []
  | line :: rest =>
    let stripped := pyStrip line
    if isSepRow stripped then
      processLines true headers rest
    else if isPipeRow stripped then
      let cells := cellsOf stripped
      if !inTable && headers.isEmpty then
        processLines inTable cells rest
      else
        bulletOf headers cells :: processLines inTable headers rest
    else
      line :: processLines false [] rest

/-- `strip_tables` (agent.py 581-613): split on newlines, run the state
machine, join with newlines. -/
def strip_tables (s : String) : String :=
  String.mk (joinOnChar '\n' (processLines false [] (splitOnChar '\n' s.data)))

/-- A line the state machine passes through unchanged: after stripping it
is neither a separator row nor a pipe-delimited row. -/
def plainLine (l : List Char) : Prop :=
  isSepRow (pyStrip l) = false ∧ isPipeRow (pyStrip l) = false

instance (l : List Char) : Decidable (plainLine l) := by
  unfold plainLine
  infer_instance

/-! ## Configuration and conversation history

Constants from `config.py`; the history store `_history` maps a channel
id to a list of turns.
-/

/-- Configuration constant `AGENT_SUMMARIZE_AFTER` (config.py line 37). -/
def AGENT_SUMMARIZE_AFTER : Nat := 100

/-- Configuration constant `AGENT_KEEP_RECENT` (config.py line 38). -/
def AGENT_KEEP_RECENT : Nat := 10

/-- A stored turn (a `pydantic_ai` `ModelMessage`).  The orchestration
code never inspects turn internals - it only counts, slices and appends
them - so turns are modelled as an abstract countable type. -/
abbrev Turn := Nat

/-- `_summarize_old_messages` (agent.py 106-117).  The summarizer
sub-agent call (`_summarizer.run_stream` under `asyncio.timeout(20)`) is
abstracted as an oracle from the old turns to `Option` of the new
messages of the summary run; `none` models any exception or the timeout,
which the `except Exception` arm turns into the `recent`-only fallback. -/
def summarize_old_messages (summarizer : List Turn → Option (List Turn))
    (messages : List Turn) : List Turn :=
  if messages.length ≤ AGENT_SUMMARIZE_AFTER then messages
  else
    let old := messages.take (messages.length - AGENT_KEEP_RECENT)
    let recent := messages.drop (messages.length - AGENT_KEEP_RECENT)
    match summarizer old with
    | some newMsgs => newMsgs ++ recent
    | none => recent

/-- The mutations `agent.py` performs on one stored conversation history:
`extend` after a completed run (lines 691, 699, 709), the trim to the
most recent `AGENT_KEEP_RECENT` turns in the context-400 retry (line
705-706), the reset to empty when that retry fails again (line 711), and
`clear_channel_history` (lines 755-756). -/
inductive HOp where
  | extend (msgs : List Turn)
  | trim
  | reset
  | clear
deriving DecidableEq

/-- Effect of one history mutation on the stored list for one id. -/
def applyHistOp (h : List Turn) : HOp → List Turn
  | .extend msgs => h ++ msgs
  | .trim => h.drop (h.length - AGENT_KEEP_RECENT)
  | .reset => []
  | .clear => []

/-! ## Stream events and the inter-task queue -/

/-- An item placed on the `asyncio.Queue` shared by producer, heartbeat
and tools: a `('text', delta)` tuple, a `('status', msg)` tuple, an
`('image_file', (data, fname))` tuple, an exception object, or the
terminal sentinel. -/
inductive QItem where
  | text (s : String)
  | status (s : String)
  | imageFile (data : List Nat) (fname : String)
  | exc (msg : String)
  | sentinel
deriving DecidableEq

/-- An event a tool can push through the `_status_q` context variable:
tool code only ever pushes status and image-file tuples (agent.py lines
241, 298, 405, 475, 491, 508, 536, 553). -/
inductive ToolItem where
  | status (s : String)
  | imageFile (data : List Nat) (fname : String)
deriving DecidableEq

/-- Inject a tool-pushed item into the queue alphabet. -/
def ToolItem.toQ : ToolItem → QItem
  | .status s => .status s
  | .imageFile d f => .imageFile d f

/-- Project the text payload out of a queue item. -/
def textOf : QItem → Option String
  | .text s => some s
  | _ => none

/-- The text payloads of a queue item list, in order. -/
def textsOf (l : List QItem) : List String := l.filterMap textOf

/-- Concatenation of a list of strings. -/
def joinTexts : List String → String
  | [] => ""
  | x :: xs => x ++ joinTexts xs

/-- Items on which the consumer loop stops. -/
def isStopItem : QItem → Bool
  | .sentinel => true
  | .exc _ => true
  | _ => false

/-- Status items (the only kind the heartbeat pushes: agent.py 651). -/
def isStatusItem : QItem → Bool
  | .status _ => true
  | _ => false

/-! ## The Agent Runner seen by `_run_once` -/

/-- One node of a `pydantic_ai` agent run as iterated by `_run_once`
(agent.py 653-686): a model-request round with its pre-commitment
(preamble) text deltas, whether a `FinalResultEvent` fired, and the text
deltas streamed after it; or a tool-execution round during which the
executed tools push items through the Status Channel. -/
inductive RunNode where
  | modelRequest (preamble : List String) (finalFound : Bool)
      (finalDeltas : List String)
  | callTools (emitted : List ToolItem)

/-- One complete agent run: its nodes, the final `run.result.output`
string, and the `run.result.new_messages()` list. -/
structure RunScript where
  nodes : List RunNode
  output : String
  newMessages : List Turn

/-- Queue items enqueued while iterating one node.  In a model-request
round the code consumes events up to `FinalResultEvent`, dropping every
text delta before it (the preamble), and enqueues each `stream_text`
delta after it as a `('text', delta)` tuple; if no `FinalResultEvent`
fires nothing is enqueued for that round.  In a tool round the executed
tools push their own items. -/
def nodeEvents : RunNode → List QItem
  | .modelRequest _ finalFound finalDeltas =>
    if finalFound then finalDeltas.map QItem.text else []
  | .callTools emitted => emitted.map ToolItem.toQ

/-- Text deltas streamed for a node (what `text_chunks` counts). -/
def finalDeltasOf : RunNode → List String
  | .modelRequest _ finalFound finalDeltas =>
    if finalFound then finalDeltas else []
  | .callTools _ => []

/-- All streamed text deltas of a run, in order. -/
def allFinalDeltas (s : RunScript) : List String :=
  s.nodes.flatMap finalDeltasOf

/-- `_run_once` (agent.py 653-686): enqueue the per-node events; then, if
no text chunk was streamed and `run.result.output` is nonempty with a
nonempty strip (`text_chunks == 0 and full and full.strip()`), enqueue
the whole output as one text item. -/
def runOnceEvents (s : RunScript) : List QItem :=
  if textsOf (s.nodes.flatMap nodeEvents) = [] ∧ s.output ≠ "" ∧
      pyStrip s.output.data ≠ [] then
    s.nodes.flatMap nodeEvents ++ [QItem.text s.output]
  else
    s.nodes.flatMap nodeEvents

/-- Replace the preamble text of every model round with nothing. -/
def eraseNodePreamble : RunNode → RunNode
  | .modelRequest _ finalFound finalDeltas =>
    .modelRequest [] finalFound finalDeltas
  | .callTools emitted => .callTools emitted

/-- The same run with all preamble text removed. -/
def erasePreambles (s : RunScript) : RunScript :=
  ⟨s.nodes.map eraseNodePreamble, s.output, s.newMessages⟩

/-! ## Error classification and the producer task -/

/-- `_is_transient_provider_error` (agent.py 616-619). -/
def isTransientProviderError (msg : String) : Bool :=
  containsLower msg "provider returned error" ||
    containsLower msg "overloaded" || containsLower msg "529"

/-- `_is_context_400` (agent.py 622-625). -/
def isContext400 (msg : String) : Bool :=
  (containsLower msg "400" || containsLower msg "bad_request") &&
    !containsLower msg "provider returned error"

/-- Outcome of one `_run_once` call: either the completed run, or an
exception whose message is recorded together with the queue items the
run had already enqueued before raising. -/
inductive Attempt where
  | ok (script : RunScript)
  | raised (emitted : List QItem) (msg : String)

/-- An action of the producer task, recorded to state the retry
discipline: a `_run_once` call with the history it was given, or an
`asyncio.sleep`. -/
inductive PAct where
  | runOnce (history : List Turn)
  | sleepSeconds (n : Nat)
deriving DecidableEq

/-- Result of the producer task: the queue items it enqueued in order
(including the terminal sentinel from its `finally`), the stored history
for the conversation when it finished, and the trace of its actions. -/
structure ProducerResult where
  enqueued : List QItem
  finalHistory : List Turn
  trace : List PAct
deriving DecidableEq

/-- `_producer` (agent.py 688-716).  `a1` is the outcome of the first
`_run_once` call on the stored history, `a2` that of the retry call,
consulted only on the two retried error classes.  A transient provider
error sleeps 3 seconds and retries once with unchanged history; a
context-400 error trims the stored history to the most recent
`AGENT_KEEP_RECENT` turns and retries once, resetting the history to
empty if the retry also raises; any other exception is enqueued without
a retry.  The sentinel is always enqueued last (`finally`). -/
def producerRun (hist : List Turn) (a1 a2 : Attempt) : ProducerResult :=
  match a1 with
  | .ok s =>
    ⟨runOnceEvents s ++ [QItem.sentinel], hist ++ s.newMessages,
      [.runOnce hist]⟩
  | .raised em e =>
    if isTransientProviderError e then
      match a2 with
      | .ok s =>
        ⟨em ++ runOnceEvents s ++ [QItem.sentinel], hist ++ s.newMessages,
          [.runOnce hist, .sleepSeconds 3, .runOnce hist]⟩
      | .raised em2 e2 =>
        ⟨em ++ em2 ++ [QItem.exc e2, QItem.sentinel], hist,
          [.runOnce hist, .sleepSeconds 3, .runOnce hist]⟩
    else if isContext400 e then
      let kept := hist.drop (hist.length - AGENT_KEEP_RECENT)
      match a2 with
      | .ok s =>
        ⟨em ++ runOnceEvents s ++ [QItem.sentinel], kept ++ s.newMessages,
          [.runOnce hist, .runOnce kept]⟩
      | .raised em2 e2 =>
        ⟨em ++ em2 ++ [QItem.exc e2, QItem.sentinel], [],
          [.runOnce hist, .runOnce kept]⟩
    else
      ⟨em ++ [QItem.exc e, QItem.sentinel], hist, [.runOnce hist]⟩

/-! ## The consumer loop and teardown of `stream_agent_message` -/

/-- An event yielded to the caller of `stream_agent_message`. -/
inductive StreamEvent where
  | text (s : String)
  | status (s : String)
  | imageFile (data : List Nat) (fname : String)
deriving DecidableEq

/-- The consumer loop of `stream_agent_message` (agent.py 720-732) over
the ordered queue contents: items are dequeued FIFO and yielded until the
sentinel; a dequeued exception is re-raised (returned here as `some msg`
after the events yielded before it); if the queue runs out with no
further item ever arriving, `asyncio.wait_for` raises `TimeoutError`
after the 120-second inactivity window and the loop yields a final
timed-out text event and breaks. -/
def consumeLoop : List QItem → List StreamEvent × Option String
  | [] => ([.text "\n\n_timed out waiting for a response_"], none)
  | QItem.sentinel :: _ => ([], none)
  | QItem.exc e :: _ => ([], some e)
  | QItem.text s :: rest =>
    let r := consumeLoop rest
    (.text s :: r.1, r.2)
  | QItem.status s :: rest =>
    let r := consumeLoop rest
    (.status s :: r.1, r.2)
  | QItem.imageFile d f :: rest =>
    let r := consumeLoop rest
    (.imageFile d f :: r.1, r.2)

/-- The injection of non-stop queue items into yielded events. -/
def qToStreamEvent : QItem → StreamEvent
  | QItem.text s => .text s
  | QItem.status s => .status s
  | QItem.imageFile d f => .imageFile d f
  | QItem.exc _ => .status ""
  | QItem.sentinel => .status ""

/-- Project the text payload out of a yielded event. -/
def streamTextOf : StreamEvent → Option String
  | .text s => some s
  | _ => none

/-- The text payloads of the events yielded to the caller, in order. -/
def yieldedTexts (qs : List QItem) : List String :=
  (consumeLoop qs).1.filterMap streamTextOf

/-- The two background tasks of one streaming turn. -/
inductive OrchTask where
  | producer
  | heartbeat
deriving DecidableEq

/-- A teardown action of `stream_agent_message`. -/
inductive TAction where
  | resetStatusChannel
  | cancelTask (t : OrchTask)
  | awaitTask (t : OrchTask)
deriving DecidableEq

/-- The `finally` block of `stream_agent_message` (agent.py 733-740) in
program order: `_status_q.reset(token)`, `heartbeat_task.cancel()`,
`producer_task.cancel()`, `await producer_task`. -/
def teardownActions : List TAction :=
  [.resetStatusChannel, .cancelTask .heartbeat, .cancelTask .producer,
    .awaitTask .producer]

/-- `stream_agent_message` as observed by its caller: the yielded events
and re-raised exception of the consumer loop, paired with the teardown
actions, which the `finally` block runs identically on every exit path
(normal completion, inactivity timeout, error, or cancellation). -/
def streamAgentRun (qs : List QItem) :
    (List StreamEvent × Option String) × List TAction :=
  (consumeLoop qs, teardownActions)

/-- Interleaving of two item sequences into one, preserving the relative
order of each: the producer and the heartbeat both `put` onto the same
FIFO queue, so the consumer sees some interleaving of the two. -/
inductive Merge : List QItem → List QItem → List QItem → Prop where
  | nil : Merge [] [] []
  | left (x : QItem) {as bs cs : List QItem} :
      Merge as bs cs → Merge (x :: as) bs (x :: cs)
  | right (y : QItem) {as bs cs : List QItem} :
      Merge as bs cs → Merge as (y :: bs) (y :: cs)

/-! ## Tools -/

/-- Outcome of the DuckDuckGo call inside `web_search` (agent.py
293-314): a list of `(title, href, body)` results, an
`asyncio.TimeoutError`, or any other exception with its message. -/
inductive SearchOutcome where
  | results (rs : List (String × String × String))
  | timeout
  | failure (msg : String)

/-- `web_search` (agent.py 293-314), with the network call abstracted as
its outcome: every branch returns a string. -/
def web_search (o : SearchOutcome) : String :=
  match o with
  | .results [] => "No results found."
  | .results rs =>
    String.intercalate "\n\n"
      (rs.map fun r => "**" ++ r.1 ++ "**\n" ++ r.2.1 ++ "\n" ++ r.2.2)
  | .timeout => "Search timed out. Try a shorter query."
  | .failure e => "Search failed: " ++ e

/-- A CTFtime event dictionary as consumed by `get_upcoming_ctfs`
(agent.py 561-577).  Every field the code reads with `.get` is modelled
as optional; `title` and `id` are read with bare indexing
(`ev["title"]`, `ev["id"]`), which raises `KeyError` when missing. -/
structure CtfEvent where
  title : Option String
  id : Option Nat
  start : Option String
  finish : Option String
  format : Option String
  weight : Option String
  durationDays : Option Nat
  durationHours : Option Nat
  url : Option String

/-- The inner `try` computing the start/end display strings (agent.py
563-568).  `parse` abstracts
`datetime.fromisoformat(convert_to_myt(x)).strftime(...)`; any exception
inside the block (including the `KeyError` of a missing `start` or
`finish`) makes both fall back to `ev.get("start", "?")` and
`ev.get("finish", "?")`. -/
def fmtTimes (parse : String → Option String)
    (startV finishV : Option String) : String × String :=
  match startV, finishV with
  | some s, some f =>
    match parse s, parse f with
    | some ps, some pf => (ps, pf)
    | _, _ => (s, f)
  | _, _ => (startV.getD "?", finishV.getD "?")

/-- The loop body formatting one event (agent.py 562-577).  Reading
`ev["title"]` or `ev["id"]` happens outside any `try`, so a missing key
raises `KeyError` past the tool boundary, modelled as `Except.error`. -/
def formatEvent (parse : String → Option String) (ev : CtfEvent) :
    Except String String :=
  match ev.title, ev.id with
  | some t, some i =>
    let times := fmtTimes parse ev.start ev.finish
    .ok ("**" ++ t ++ "** (ID: " ++ toString i ++ ")\n  Format: " ++
      ev.format.getD "?" ++ " | Weight: " ++ ev.weight.getD "?" ++
      " | Duration: " ++ toString (ev.durationDays.getD 0) ++ "d " ++
      toString (ev.durationHours.getD 0) ++ "h\n  Start: " ++ times.1 ++
      "\n  End:   " ++ times.2 ++ "\n  URL: " ++ ev.url.getD "")
  | none, _ => .error "KeyError: title"
  | _, none => .error "KeyError: id"

/-- `get_upcoming_ctfs` (agent.py 544-578).  `fetch` is the outcome of
`await fetch_upcoming_events()`: `Except.error` when that call raises
(caught and turned into a reply string), otherwise the value returned,
which is `None` when CTFtime answered with a non-200 status
(handlers/ctf.py 95).  An `Except.error` in the result models an
exception escaping the tool boundary. -/
def getUpcomingCtfs (parse : String → Option String)
    (fetch : Except String (Option (List CtfEvent))) : Except String String :=
  match fetch with
  | .error e => .ok ("Failed to fetch CTFtime: " ++ e)
  | .ok none => .ok "No upcoming CTF events in the next 4 weeks."
  | .ok (some []) => .ok "No upcoming CTF events in the next 4 weeks."
  | .ok (some evs) => do
    let lines ← evs.mapM (formatEvent parse)
    pure (String.intercalate "\n\n" lines)

/-! ## Buffered mode -/

/-- `handle_agent_message` (agent.py 743-752).  The turn runs under
`asyncio.timeout(45)`; every suspension point of the block sits inside
the `agent.run_stream` call tree, before any history mutation, and no
`await` separates the history `extend` from `return strip_tables(output)`,
so the deadline either fires during the model call (`outcome = none`,
history untouched) or the run completes (`outcome = some`).  Returns the
stored history after the call together with the reply string. -/
def handle_agent_message (hist : List Turn)
    (outcome : Option (String × List Turn)) : List Turn × String :=
  match outcome with
  | none => (hist, "took too long, try again")
  | some (output, newMsgs) => (hist ++ newMsgs, strip_tables output)

/-! ### Structural lemmas about splitting and joining -/

theorem joinOnChar_cons_cons (sep : Char) (l q : List Char)
    (qs : List (List Char)) :
    joinOnChar sep (l :: q :: qs) = l ++ sep :: joinOnChar sep (q :: qs) := rfl

theorem splitOnCharP_cons_eq (sep : Char) (rest : List Char) :
    splitOnCharP sep (sep :: rest) =
      ([], (splitOnCharP sep rest).1 :: (splitOnCharP sep rest).2) := by
  simp [splitOnCharP]

theorem splitOnCharP_cons_ne {sep c : Char} (h : ¬c = sep)
    (rest : List Char) :
    splitOnCharP sep (c :: rest) =
      (c :: (splitOnCharP sep rest).1, (splitOnCharP sep rest).2) := by
  simp [splitOnCharP, h]

/-- Joining the pieces of a split recovers the original character list. -/
theorem joinOnChar_splitOnChar (sep : Char) (cs : List Char) :
    joinOnChar sep (splitOnChar sep cs) = cs := by
  induction cs with
  | nil => rfl
  | cons c rest ih =>
    unfold splitOnChar at ih ⊢
    by_cases hc : c = sep
    · rw [hc, splitOnCharP_cons_eq]
      exact congrArg (sep :: ·) ih
    · rw [splitOnCharP_cons_ne hc]
      cases h2 : (splitOnCharP sep rest).2 with
      | nil =>
        rw [h2] at ih
        show joinOnChar sep [c :: (splitOnCharP sep rest).1] = c :: rest
        simp only [joinOnChar] at ih ⊢
        rw [ih]
      | cons q qs =>
        rw [h2] at ih
        show joinOnChar sep ((c :: (splitOnCharP sep rest).1) :: q :: qs) =
          c :: rest
        rw [joinOnChar_cons_cons] at ih ⊢
        simp only [List.cons_append]
        exact congrArg (c :: ·) ih

/-- No piece produced by a split contains the separator. -/
theorem splitOnCharP_no_sep (sep : Char) (cs : List Char) :
    sep ∉ (splitOnCharP sep cs).1 ∧
      ∀ p ∈ (splitOnCharP sep cs).2, sep ∉ p := by
  induction cs with
  | nil => simp [splitOnCharP]
  | cons c rest ih =>
    by_cases hc : c = sep
    · rw [hc, splitOnCharP_cons_eq]
      refine ⟨by simp, ?_⟩
      intro p hp
      rcases List.mem_cons.mp hp with h | h
      · exact h ▸ ih.1
      · exact ih.2 p h
    · rw [splitOnCharP_cons_ne hc]
      refine ⟨?_, ih.2⟩
      intro hmem
      rcases List.mem_cons.mp hmem with h | h
      · exact hc h.symm
      · exact ih.1 h

theorem mem_splitOnChar_no_sep {sep : Char} {cs : List Char} {p : List Char}
    (hp : p ∈ splitOnChar sep cs) : sep ∉ p := by
  rcases List.mem_cons.mp hp with h | h
  · exact h ▸ (splitOnCharP_no_sep sep cs).1
  · exact (splitOnCharP_no_sep sep cs).2 p h

/-- Splitting a separator-free list yields a single piece. -/
theorem splitOnCharP_of_not_mem {sep : Char} {cs : List Char}
    (h : sep ∉ cs) : splitOnCharP sep cs = (cs, []) := by
  induction cs with
  | nil => rfl
  | cons c rest ih =>
    have hc : ¬c = sep := fun he => h (he ▸ List.mem_cons_self c rest)
    rw [splitOnCharP_cons_ne hc, ih (fun hm => h (List.mem_cons_of_mem c hm))]

/-- Splitting a list of the form `l ++ sep :: r` with separator-free `l`
peels off `l` as the first piece. -/
theorem splitOnCharP_append {sep : Char} {l : List Char} (r : List Char)
    (h : sep ∉ l) :
    splitOnCharP sep (l ++ sep :: r) =
      (l, (splitOnCharP sep r).1 :: (splitOnCharP sep r).2) := by
  induction l with
  | nil => simp [splitOnCharP]
  | cons c t ih =>
    have hc : ¬c = sep := fun he => h (he ▸ List.mem_cons_self c t)
    have ht : sep ∉ t := fun hm => h (List.mem_cons_of_mem c hm)
    simp only [List.cons_append]
    rw [splitOnCharP_cons_ne hc, ih ht]

/-- Splitting the join of nonempty, separator-free pieces recovers the
pieces. -/
theorem splitOnChar_joinOnChar (sep : Char) :
    ∀ ls : List (List Char), ls ≠ [] → (∀ l ∈ ls, sep ∉ l) →
      splitOnChar sep (joinOnChar sep ls) = ls := by
  intro ls
  induction ls with
  | nil => intro h; exact absurd rfl h
  | cons l ls ih =>
    intro _ hfree
    cases ls with
    | nil =>
      show splitOnChar sep (joinOnChar sep [l]) = [l]
      have : joinOnChar sep [l] = l := rfl
      rw [this]
      unfold splitOnChar
      rw [splitOnCharP_of_not_mem (hfree l (List.mem_cons_self l []))]
    | cons q qs =>
      rw [joinOnChar_cons_cons]
      unfold splitOnChar
      rw [splitOnCharP_append _ (hfree l (List.mem_cons_self l _))]
      have hrec := ih (by simp) (fun x hx => hfree x (List.mem_cons_of_mem l hx))
      unfold splitOnChar at hrec
      exact congrArg (l :: ·) hrec

/-! ### Lines surviving or produced by the state machine -/

theorem processLines_cons_sep {line : List Char}
    (h : isSepRow (pyStrip line) = true) (inTable : Bool)
    (headers : List (List Char)) (rest : List (List Char)) :
    processLines inTable headers (line :: rest) =
      processLines true headers rest := by
  simp [processLines, h]

theorem processLines_cons_header {line : List Char} {inTable : Bool}
    {headers : List (List Char)} (h1 : isSepRow (pyStrip line) = false)
    (h2 : isPipeRow (pyStrip line) = true)
    (h3 : (!inTable && headers.isEmpty) = true)
    (rest : List (List Char)) :
    processLines inTable headers (line :: rest) =
      processLines inTable (cellsOf (pyStrip line)) rest := by
  simp [processLines, h1, h2, h3]

theorem processLines_cons_data {line : List Char} {inTable : Bool}
    {headers : List (List Char)} (h1 : isSepRow (pyStrip line) = false)
    (h2 : isPipeRow (pyStrip line) = true)
    (h3 : (!inTable && headers.isEmpty) = false)
    (rest : List (List Char)) :
    processLines inTable headers (line :: rest) =
      bulletOf headers (cellsOf (pyStrip line)) ::
        processLines inTable headers rest := by
  simp [processLines, h1, h2, h3]

theorem processLines_cons_plain {line : List Char}
    (h1 : isSepRow (pyStrip line) = false)
    (h2 : isPipeRow (pyStrip line) = false) (inTable : Bool)
    (headers : List (List Char)) (rest : List (List Char)) :
    processLines inTable headers (line :: rest) =
      line :: processLines false [] rest := by
  simp [processLines, h1, h2]

/-- A run of the state machine over plain lines is the identity, from any
starting state. -/
theorem processLines_plain :
    ∀ ls : List (List Char), (∀ l ∈ ls, plainLine l) →
      ∀ (inTable : Bool) (headers : List (List Char)),
        processLines inTable headers ls = ls := by
  intro ls
  induction ls with
  | nil => intro _ _ _; rfl
  | cons line rest ih =>
    intro h inTable headers
    have hl := h line (List.mem_cons_self _ _)
    rw [processLines_cons_plain hl.1 hl.2]
    exact congrArg (line :: ·)
      (ih (fun x hx => h x (List.mem_cons_of_mem _ hx)) false [])

/-- Characters of a stripped line come from the line. -/
theorem mem_pyStrip {c : Char} {l : List Char} (h : c ∈ pyStrip l) :
    c ∈ l := by
  unfold pyStrip at h
  rw [List.mem_reverse] at h
  have h2 : c ∈ (l.dropWhile isPyWs).reverse :=
    List.Sublist.mem h (List.dropWhile_sublist _)
  rw [List.mem_reverse] at h2
  exact List.Sublist.mem h2 (List.dropWhile_sublist _)

/-- Characters of the pieces of a split come from the split list. -/
theorem splitOnCharP_chars (sep : Char) (cs : List Char) :
    (∀ c ∈ (splitOnCharP sep cs).1, c ∈ cs) ∧
      ∀ p ∈ (splitOnCharP sep cs).2, ∀ c ∈ p, c ∈ cs := by
  induction cs with
  | nil => simp [splitOnCharP]
  | cons a rest ih =>
    by_cases hc : a = sep
    · rw [hc, splitOnCharP_cons_eq]
      refine ⟨by simp, ?_⟩
      intro p hp c hcp
      rcases List.mem_cons.mp hp with h | h
      · exact List.mem_cons_of_mem _ (ih.1 c (h ▸ hcp))
      · exact List.mem_cons_of_mem _ (ih.2 p h c hcp)
    · rw [splitOnCharP_cons_ne hc]
      refine ⟨?_, fun p hp c hcp => List.mem_cons_of_mem _ (ih.2 p hp c hcp)⟩
      intro c hcp
      rcases List.mem_cons.mp hcp with h | h
      · exact h ▸ List.mem_cons_self _ _
      · exact List.mem_cons_of_mem _ (ih.1 c h)

/-- Characters of a parsed cell come from the stripped row. -/
theorem mem_cellsOf {stripped cell : List Char}
    (hc : cell ∈ cellsOf stripped) {c : Char} (h : c ∈ cell) :
    c ∈ stripped := by
  unfold cellsOf at hc
  rcases List.mem_map.mp hc with ⟨p, hp, rfl⟩
  have h1 : c ∈ p := mem_pyStrip h
  have h2 : c ∈ (stripped.drop 1).dropLast := by
    rcases List.mem_cons.mp hp with he | he
    · exact (splitOnCharP_chars _ _).1 c (he ▸ h1)
    · exact (splitOnCharP_chars _ _).2 p he c h1
  exact List.Sublist.mem (List.Sublist.mem h2 (List.dropLast_sublist _))
    (List.drop_sublist _ _)

/-- Characters of a joined parts list are the two separator characters or
come from some part. -/
theorem mem_joinParts {c : Char} :
    ∀ {ps : List (List Char)}, c ∈ joinParts ps →
      c = ',' ∨ c = ' ' ∨ ∃ p ∈ ps, c ∈ p := by
  intro ps
  induction ps with
  | nil => intro h; simp [joinParts] at h
  | cons p ps ih =>
    cases ps with
    | nil =>
      intro h
      exact Or.inr (Or.inr ⟨p, List.mem_cons_self _ _, h⟩)
    | cons q qs =>
      intro h
      rcases List.mem_append.mp h with h | h
      · exact Or.inr (Or.inr ⟨p, List.mem_cons_self _ _, h⟩)
      · rcases List.mem_cons.mp h with h | h
        · exact Or.inl h
        · rcases List.mem_cons.mp h with h | h
          · exact Or.inr (Or.inl h)
          · rcases ih h with h | h | ⟨x, hx, hcx⟩
            · exact Or.inl h
            · exact Or.inr (Or.inl h)
            · exact Or.inr (Or.inr ⟨x, List.mem_cons_of_mem _ hx, hcx⟩)

/-- Bullets built from newline-free headers and cells are newline-free. -/
theorem bulletOf_no_newline {headers cells : List (List Char)}
    (hh : ∀ p ∈ headers, '\n' ∉ p) (hc : ∀ p ∈ cells, '\n' ∉ p) :
    '\n' ∉ bulletOf headers cells := by
  intro hmem
  unfold bulletOf at hmem
  rcases List.mem_append.mp hmem with h | h
  · exact absurd h (by decide)
  · rcases mem_joinParts h with h | h | ⟨p, hp, hcp⟩
    · exact absurd h (by decide)
    · exact absurd h (by decide)
    · unfold bulletParts at hp
      by_cases hb : (!headers.isEmpty && headers.length == cells.length) = true
      · rw [if_pos hb] at hp
        rcases List.mem_filterMap.mp hp with ⟨hv, hzip, hf⟩
        by_cases hemp : hv.2.isEmpty = true
        · rw [if_pos hemp] at hf; exact absurd hf (by simp)
        · rw [if_neg hemp] at hf
          have hpe := Option.some.inj hf
          rw [← hpe] at hcp
          have hmz := List.of_mem_zip hzip
          rcases List.mem_append.mp hcp with h2 | h2
          · rcases List.mem_append.mp h2 with h3 | h3
            · rcases List.mem_append.mp h3 with h4 | h4
              · exact absurd h4 (by decide)
              · exact hh hv.1 hmz.1 h4
            · exact absurd h3 (by decide)
          · exact hc hv.2 hmz.2 h2
      · rw [if_neg hb] at hp
        exact hc p (List.mem_of_mem_filter hp) hcp

/-- Stripping a list that starts with a non-whitespace character keeps
that character at the head. -/
theorem pyStrip_head_of_not_ws {c : Char} (hc : isPyWs c = false)
    (l : List Char) : (pyStrip (c :: l)).head? = some c := by
  unfold pyStrip
  rw [List.dropWhile_cons]
  simp only [hc, Bool.false_eq_true, if_false, List.reverse_cons,
    List.dropWhile_append]
  by_cases he : ((l.reverse.dropWhile isPyWs).isEmpty : Bool) = true
  · simp [he, List.dropWhile_cons, hc]
  · simp only [he, Bool.false_eq_true, if_false, List.reverse_append,
      List.reverse_cons, List.reverse_nil, List.nil_append,
      List.cons_append, List.head?_cons]

/-- Any line whose stripped form starts with a dash is plain. -/
theorem plainLine_of_head_dash {l : List Char}
    (h : (pyStrip l).head? = some '-') : plainLine l := by
  have hne : ((pyStrip l).head? == some '|') = false := by rw [h]; decide
  constructor
  · unfold isSepRow
    simp only [hne, Bool.false_and]
  · unfold isPipeRow
    simp only [hne, Bool.false_and]

/-- Bullets are plain lines. -/
theorem plainLine_bulletOf (headers cells : List (List Char)) :
    plainLine (bulletOf headers cells) :=
  plainLine_of_head_dash
    (pyStrip_head_of_not_ws (by decide) (' ' :: joinParts (bulletParts headers cells)))

/-- Every line emitted by the state machine is plain and newline-free,
provided the input lines and the header state are newline-free. -/
theorem processLines_out :
    ∀ ls : List (List Char), (∀ l ∈ ls, '\n' ∉ l) →
      ∀ (inTable : Bool) (headers : List (List Char)),
        (∀ p ∈ headers, '\n' ∉ p) →
        ∀ out ∈ processLines inTable headers ls, plainLine out ∧ '\n' ∉ out := by
  intro ls
  induction ls with
  | nil =>
    intro _ inTable headers _ out hout
    simp [processLines] at hout
  | cons line rest ih =>
    intro hls inTable headers hhs out hout
    have hline : '\n' ∉ line := hls line (List.mem_cons_self _ _)
    have hrest : ∀ l ∈ rest, '\n' ∉ l :=
      fun x hx => hls x (List.mem_cons_of_mem _ hx)
    have hcells : ∀ p ∈ cellsOf (pyStrip line), '\n' ∉ p := by
      intro p hp hmem
      exact hline (mem_pyStrip (mem_cellsOf hp hmem))
    cases h1 : isSepRow (pyStrip line) with
    | true =>
      rw [processLines_cons_sep h1] at hout
      exact ih hrest true headers hhs out hout
    | false =>
      cases h2 : isPipeRow (pyStrip line) with
      | true =>
        cases h3 : (!inTable && headers.isEmpty) with
        | true =>
          rw [processLines_cons_header h1 h2 h3] at hout
          exact ih hrest inTable _ hcells out hout
        | false =>
          rw [processLines_cons_data h1 h2 h3] at hout
          rcases List.mem_cons.mp hout with he | he
          · refine ⟨he ▸ plainLine_bulletOf _ _, ?_⟩
            rw [he]
            exact bulletOf_no_newline hhs hcells
          · exact ih hrest inTable headers hhs out he
      | false =>
        rw [processLines_cons_plain h1 h2] at hout
        rcases List.mem_cons.mp hout with he | he
        · exact ⟨he ▸ ⟨h1, h2⟩, he ▸ hline⟩
        · exact ih hrest false [] (by intro p hp; exact absurd hp (List.not_mem_nil p))
            out he

/-- Inputs with only plain lines pass through `strip_tables` unchanged. -/
theorem strip_tables_of_plain (s : String)
    (h : ∀ l ∈ splitOnChar '\n' s.data, plainLine l) : strip_tables s = s := by
  unfold strip_tables
  rw [processLines_plain _ h false [], joinOnChar_splitOnChar]

/-! ### Lemmas about the consumer loop and the producer -/

/-- The consumer yields every non-stop item of a queue prefix and then
continues with the rest. -/
theorem consumeLoop_append {l : List QItem}
    (h : ∀ i ∈ l, isStopItem i = false) (rest : List QItem) :
    consumeLoop (l ++ rest) =
      (l.map qToStreamEvent ++ (consumeLoop rest).1, (consumeLoop rest).2) := by
  induction l with
  | nil => simp
  | cons x xs ih =>
    have hx := h x (List.mem_cons_self _ _)
    have hxs := fun i hi => h i (List.mem_cons_of_mem x hi)
    cases x with
    | text s => simp [consumeLoop, qToStreamEvent, ih hxs]
    | status s => simp [consumeLoop, qToStreamEvent, ih hxs]
    | imageFile d f => simp [consumeLoop, qToStreamEvent, ih hxs]
    | exc e => simp [isStopItem] at hx
    | sentinel => simp [isStopItem] at hx

theorem streamTextOf_qToStreamEvent (q : QItem) :
    streamTextOf (qToStreamEvent q) = textOf q := by
  cases q <;> rfl

theorem filterMap_qToStream (l : List QItem) :
    (l.map qToStreamEvent).filterMap streamTextOf = textsOf l := by
  induction l with
  | nil => rfl
  | cons x xs ih =>
    simp only [List.map_cons, List.filterMap_cons, textsOf,
      streamTextOf_qToStreamEvent]
    unfold textsOf at ih
    cases hx : textOf x <;> simp [hx, ih]

/-- Over a stop-free prefix closed by the sentinel, the yielded texts are
exactly the text payloads of the prefix. -/
theorem yieldedTexts_append_sentinel {l : List QItem}
    (h : ∀ i ∈ l, isStopItem i = false) :
    yieldedTexts (l ++ [QItem.sentinel]) = textsOf l := by
  unfold yieldedTexts
  rw [consumeLoop_append h]
  simp only [consumeLoop, List.append_nil, List.filterMap_append]
  rw [filterMap_qToStream]

theorem yieldedTexts_cons_text (s : String) (rest : List QItem) :
    yieldedTexts (QItem.text s :: rest) = s :: yieldedTexts rest := by
  simp [yieldedTexts, consumeLoop, streamTextOf, List.filterMap_cons]

theorem yieldedTexts_cons_status (s : String) (rest : List QItem) :
    yieldedTexts (QItem.status s :: rest) = yieldedTexts rest := by
  simp [yieldedTexts, consumeLoop, streamTextOf, List.filterMap_cons]

theorem yieldedTexts_cons_image (d : List Nat) (f : String)
    (rest : List QItem) :
    yieldedTexts (QItem.imageFile d f :: rest) = yieldedTexts rest := by
  simp [yieldedTexts, consumeLoop, streamTextOf, List.filterMap_cons]

theorem yieldedTexts_cons_exc (e : String) (rest : List QItem) :
    yieldedTexts (QItem.exc e :: rest) = [] := by
  simp [yieldedTexts, consumeLoop]

theorem yieldedTexts_cons_sentinel (rest : List QItem) :
    yieldedTexts (QItem.sentinel :: rest) = [] := by
  simp [yieldedTexts, consumeLoop]

/-- Interleaving status-only items (the heartbeat) into a queue does not
change the yielded texts. -/
theorem yieldedTexts_merge {ps hs qs : List QItem} (hm : Merge ps hs qs) :
    (∀ h ∈ hs, isStatusItem h = true) → yieldedTexts qs = yieldedTexts ps := by
  induction hm with
  | nil => intro _; rfl
  | left x hm ih =>
    intro hhb
    cases x with
    | text s => rw [yieldedTexts_cons_text, yieldedTexts_cons_text, ih hhb]
    | status s => rw [yieldedTexts_cons_status, yieldedTexts_cons_status, ih hhb]
    | imageFile d f => rw [yieldedTexts_cons_image, yieldedTexts_cons_image, ih hhb]
    | exc e => rw [yieldedTexts_cons_exc, yieldedTexts_cons_exc]
    | sentinel => rw [yieldedTexts_cons_sentinel, yieldedTexts_cons_sentinel]
  | right y hm ih =>
    intro hhb
    have hy := hhb y (List.mem_cons_self _ _)
    have hrest := fun h hh => hhb h (List.mem_cons_of_mem y hh)
    cases y with
    | status s => rw [yieldedTexts_cons_status, ih hrest]
    | text s => simp [isStatusItem] at hy
    | imageFile d f => simp [isStatusItem] at hy
    | exc e => simp [isStatusItem] at hy
    | sentinel => simp [isStatusItem] at hy

theorem textsOf_append (a b : List QItem) :
    textsOf (a ++ b) = textsOf a ++ textsOf b :=
  List.filterMap_append a b textOf

theorem textsOf_map_text (ds : List String) :
    textsOf (ds.map QItem.text) = ds := by
  induction ds with
  | nil => rfl
  | cons d ds ih =>
    simp only [List.map_cons, textsOf, List.filterMap_cons, textOf]
    unfold textsOf at ih
    rw [ih]

theorem textsOf_map_toolQ (em : List ToolItem) :
    textsOf (em.map ToolItem.toQ) = [] := by
  induction em with
  | nil => rfl
  | cons t ts ih =>
    cases t <;>
      simp only [List.map_cons, textsOf, List.filterMap_cons, ToolItem.toQ,
        textOf] <;>
      exact ih

/-- The text payloads enqueued for one node are its streamed deltas. -/
theorem textsOf_nodeEvents (n : RunNode) :
    textsOf (nodeEvents n) = finalDeltasOf n := by
  cases n with
  | modelRequest p ff ds =>
    cases ff with
    | true => simp only [nodeEvents, finalDeltasOf, if_true]; exact textsOf_map_text ds
    | false => rfl
  | callTools em => exact textsOf_map_toolQ em

/-- The text payloads enqueued for a run body are all its streamed
deltas. -/
theorem textsOf_runNodes (s : RunScript) :
    textsOf (s.nodes.flatMap nodeEvents) = allFinalDeltas s := by
  unfold allFinalDeltas
  induction s.nodes with
  | nil => rfl
  | cons n ns ih =>
    rw [List.flatMap_cons, List.flatMap_cons, textsOf_append,
      textsOf_nodeEvents, ih]

theorem nodeEvents_noStop (n : RunNode) :
    ∀ i ∈ nodeEvents n, isStopItem i = false := by
  intro i hi
  cases n with
  | modelRequest p ff ds =>
    cases ff with
    | true =>
      simp only [nodeEvents, if_true] at hi
      rcases List.mem_map.mp hi with ⟨s, _, rfl⟩
      rfl
    | false => simp [nodeEvents] at hi
  | callTools em =>
    rcases List.mem_map.mp hi with ⟨t, _, rfl⟩
    cases t <;> rfl

/-- `_run_once` never enqueues a stop item itself. -/
theorem runOnceEvents_noStop (s : RunScript) :
    ∀ i ∈ runOnceEvents s, isStopItem i = false := by
  intro i hi
  unfold runOnceEvents at hi
  have hbody : ∀ j ∈ s.nodes.flatMap nodeEvents, isStopItem j = false := by
    intro j hj
    rcases List.mem_flatMap.mp hj with ⟨n, _, hjn⟩
    exact nodeEvents_noStop n j hjn
  split at hi
  · rcases List.mem_append.mp hi with h | h
    · exact hbody i h
    · simp only [List.mem_singleton] at h
      rw [h]; rfl
  · exact hbody i hi

/-- The text payloads that `_run_once` enqueues: the streamed deltas, or
the whole output when the whole-output fallback fires. -/
theorem textsOf_runOnceEvents (s : RunScript) :
    textsOf (runOnceEvents s) =
      if allFinalDeltas s = [] ∧ s.output ≠ "" ∧ pyStrip s.output.data ≠ []
      then [s.output] else allFinalDeltas s := by
  unfold runOnceEvents
  by_cases hc : textsOf (s.nodes.flatMap nodeEvents) = [] ∧ s.output ≠ "" ∧
      pyStrip s.output.data ≠ []
  · rw [if_pos hc, textsOf_append]
    have hc' := hc
    rw [textsOf_runNodes] at hc'
    rw [if_pos hc', textsOf_runNodes, hc'.1]
    rfl
  · rw [if_neg hc, textsOf_runNodes]
    have hc' := hc
    rw [textsOf_runNodes] at hc'
    rw [if_neg hc']

/-- Erasing preamble text changes nothing the producer enqueues. -/
theorem runOnceEvents_erase (s : RunScript) :
    runOnceEvents (erasePreambles s) = runOnceEvents s := by
  unfold runOnceEvents erasePreambles
  have h : (s.nodes.map eraseNodePreamble).flatMap nodeEvents =
      s.nodes.flatMap nodeEvents := by
    induction s.nodes with
    | nil => rfl
    | cons n ns ih =>
      rw [List.map_cons, List.flatMap_cons, List.flatMap_cons, ih]
      cases n <;> rfl
  rw [h]

theorem consumeLoop_exc {l : List QItem}
    (h : ∀ i ∈ l, isStopItem i = false) (e : String) (rest : List QItem) :
    (consumeLoop (l ++ QItem.exc e :: rest)).2 = some e := by
  rw [consumeLoop_append h]
  rfl

/-- Interleaving with an empty heartbeat stream. -/
theorem merge_nil_right : ∀ l : List QItem, Merge l [] l
  | [] => Merge.nil
  | x :: xs => Merge.left x (merge_nil_right xs)

/-! ## Claim theorems -/

/-- C1, counterexample.  Two concrete turns on which the claim as stated
fails.  First: a run that streams nothing and whose final output is the
whitespace-only string of one space.  The fallback condition
`text_chunks == 0 and full and full.strip()` is false because
`" ".strip()` is empty, so no Text event is yielded at all and the
concatenation is the empty string, not the final answer.  Second: a turn
whose first attempt raises a transient provider error after streaming the
delta `"x"`; the retry streams the full answer `"xy"` again, and the
consumer receives the Text events `"x"`, `"x"`, `"y"`, whose
concatenation `"xxy"` differs from the final answer `"xy"`. -/
theorem claim_C1_counterexample :
    joinTexts (yieldedTexts ((producerRun [] (Attempt.ok ⟨[], " ", []⟩)
        (Attempt.ok ⟨[], " ", []⟩)).enqueued)) ≠
      RunScript.output ⟨[], " ", []⟩
    ∧ joinTexts (yieldedTexts ((producerRun []
          (Attempt.raised [QItem.text "x"] "overloaded")
          (Attempt.ok ⟨[RunNode.modelRequest [] true ["x", "y"]], "xy",
            []⟩)).enqueued)) = "xxy"
    ∧ ("xxy" : String) ≠ "xy" := by
  refine ⟨by decide, by decide, by decide⟩

/-- C1 (amended): for a streamed turn whose first `_run_once` attempt
succeeds, the Text events delivered to the consumer - the producer's
queue items interleaved FIFO with any number of heartbeat status items -
concatenated in delivery order equal the full final answer
`run.result.output`, under the streaming contract of the model layer
(whenever any deltas were streamed, their concatenation is the output)
and provided the final answer is not a nonempty whitespace-only string
(which the fallback refuses to enqueue); moreover model preamble text
never influences the yielded events - erasing every preamble yields the
identical event stream. -/
theorem claim_C1_stream_text_ordering (hist : List Turn) (s : RunScript)
    (a2 : Attempt) (hs qs : List QItem)
    (hmerge : Merge ((producerRun hist (Attempt.ok s) a2).enqueued) hs qs)
    (hhb : ∀ h ∈ hs, isStatusItem h = true)
    (hcontract : allFinalDeltas s ≠ [] →
      joinTexts (allFinalDeltas s) = s.output)
    (houtput : s.output = "" ∨ pyStrip s.output.data ≠ []) :
    joinTexts (yieldedTexts qs) = s.output
    ∧ yieldedTexts qs =
        yieldedTexts (runOnceEvents (erasePreambles s) ++ [QItem.sentinel]) := by
  have h1 : yieldedTexts qs =
      yieldedTexts ((producerRun hist (Attempt.ok s) a2).enqueued) :=
    yieldedTexts_merge hmerge hhb
  have h2 : (producerRun hist (Attempt.ok s) a2).enqueued =
      runOnceEvents s ++ [QItem.sentinel] := rfl
  constructor
  · rw [h1, h2, yieldedTexts_append_sentinel (runOnceEvents_noStop s),
      textsOf_runOnceEvents]
    by_cases hc : allFinalDeltas s = [] ∧ s.output ≠ "" ∧
        pyStrip s.output.data ≠ []
    · rw [if_pos hc]
      show s.output ++ joinTexts [] = s.output
      exact String.append_empty s.output
    · rw [if_neg hc]
      by_cases hd : allFinalDeltas s = []
      · have hout : s.output = "" := by
          rcases houtput with h | h
          · exact h
          · by_contra hne
            exact hc ⟨hd, hne, h⟩
        rw [hd, hout]
        rfl
      · exact hcontract hd
  · rw [h1, h2, runOnceEvents_erase]

/-- C1, witness for the amended theorem: a run with preamble `"p"` that
streams the deltas `"a"`, `"b"` and finishes with output `"ab"`. -/
theorem claim_C1_witness :
    joinTexts (yieldedTexts ((producerRun [1]
        (Attempt.ok ⟨[RunNode.modelRequest ["p"] true ["a", "b"]], "ab",
          [7]⟩) (Attempt.ok ⟨[], "", []⟩)).enqueued)) = "ab" :=
  (claim_C1_stream_text_ordering [1]
    ⟨[RunNode.modelRequest ["p"] true ["a", "b"]], "ab", [7]⟩
    (Attempt.ok ⟨[], "", []⟩) []
    ((producerRun [1]
      (Attempt.ok ⟨[RunNode.modelRequest ["p"] true ["a", "b"]], "ab",
        [7]⟩) (Attempt.ok ⟨[], "", []⟩)).enqueued)
    (merge_nil_right _)
    (by intro h hm; exact absurd hm (List.not_mem_nil h))
    (by intro _; decide)
    (Or.inr (by decide))).1

/-- C2: the producer retries at most once per error class per turn.  A
transient provider fault (message containing one of the three transient
markers) is retried exactly once, after a 3-second sleep, with unchanged
history.  A context fault (message containing `400` or `bad_request` and
not matching the transient signature) is retried exactly once with the
history trimmed to the most recent `AGENT_KEEP_RECENT` turns, and if the
retry also raises the stored history is reset to empty.  Any other
exception is enqueued for the consumer after a single attempt, with no
retry, and the consumer re-raises it. -/
theorem claim_C2_retry_classification (hist : List Turn)
    (em em2 : List QItem) (e e2 : String) (s : RunScript) :
    (isTransientProviderError e = true →
      (producerRun hist (Attempt.raised em e) (Attempt.ok s)).trace
          = [PAct.runOnce hist, PAct.sleepSeconds 3, PAct.runOnce hist]
      ∧ (producerRun hist (Attempt.raised em e) (Attempt.ok s)).finalHistory
          = hist ++ s.newMessages
      ∧ (producerRun hist (Attempt.raised em e)
            (Attempt.raised em2 e2)).trace
          = [PAct.runOnce hist, PAct.sleepSeconds 3, PAct.runOnce hist]
      ∧ (producerRun hist (Attempt.raised em e)
            (Attempt.raised em2 e2)).enqueued
          = em ++ em2 ++ [QItem.exc e2, QItem.sentinel]
      ∧ (producerRun hist (Attempt.raised em e)
            (Attempt.raised em2 e2)).finalHistory = hist)
    ∧ (isTransientProviderError e = false → isContext400 e = true →
      (producerRun hist (Attempt.raised em e) (Attempt.ok s)).trace
          = [PAct.runOnce hist,
              PAct.runOnce (hist.drop (hist.length - AGENT_KEEP_RECENT))]
      ∧ (producerRun hist (Attempt.raised em e) (Attempt.ok s)).finalHistory
          = hist.drop (hist.length - AGENT_KEEP_RECENT) ++ s.newMessages
      ∧ (producerRun hist (Attempt.raised em e)
            (Attempt.raised em2 e2)).trace
          = [PAct.runOnce hist,
              PAct.runOnce (hist.drop (hist.length - AGENT_KEEP_RECENT))]
      ∧ (producerRun hist (Attempt.raised em e)
            (Attempt.raised em2 e2)).finalHistory = [])
    ∧ (isTransientProviderError e = false → isContext400 e = false →
      (producerRun hist (Attempt.raised em e) (Attempt.ok s)).trace
          = [PAct.runOnce hist]
      ∧ (producerRun hist (Attempt.raised em e) (Attempt.ok s)).enqueued
          = em ++ [QItem.exc e, QItem.sentinel]
      ∧ (producerRun hist (Attempt.raised em e) (Attempt.ok s)).finalHistory
          = hist
      ∧ ((∀ i ∈ em, isStopItem i = false) →
          (consumeLoop ((producerRun hist (Attempt.raised em e)
              (Attempt.ok s)).enqueued)).2 = some e)) := by
  refine ⟨?_, ?_, ?_⟩
  · intro ht
    simp [producerRun, ht]
  · intro ht hf
    simp [producerRun, ht, hf]
  · intro ht hf
    refine ⟨by simp [producerRun, ht, hf], by simp [producerRun, ht, hf],
      by simp [producerRun, ht, hf], ?_⟩
    intro hem
    have henq : (producerRun hist (Attempt.raised em e)
        (Attempt.ok s)).enqueued = em ++ QItem.exc e :: [QItem.sentinel] := by
      simp [producerRun, ht, hf]
    rw [henq]
    exact consumeLoop_exc hem e [QItem.sentinel]

/-- C2, witness: a transient message is retried with unchanged history
after a sleep, and a double context-400 failure resets the history. -/
theorem claim_C2_witness :
    (producerRun [0, 1] (Attempt.raised [] "overloaded")
        (Attempt.ok ⟨[], "hi", [2]⟩)).trace
      = [PAct.runOnce [0, 1], PAct.sleepSeconds 3, PAct.runOnce [0, 1]]
    ∧ (producerRun [0, 1] (Attempt.raised [] "http 400 bad_request")
        (Attempt.raised [] "400 again")).finalHistory = [] := by
  refine ⟨((claim_C2_retry_classification [0, 1] [] [] "overloaded" "x"
    ⟨[], "hi", [2]⟩).1 (by decide)).1, ?_⟩
  exact ((claim_C2_retry_classification [0, 1] [] [] "http 400 bad_request"
    "400 again" ⟨[], "hi", [2]⟩).2.1 (by decide) (by decide)).2.2.2

/-- C3, counterexample.  The context-400 recovery path shrinks the stored
history without any explicit clear: on a history of 11 turns, the trim
keeps only the 10 most recent, and the double-failure path resets the
history to empty, so the length is not non-decreasing outside explicit
clears. -/
theorem claim_C3_counterexample :
    (applyHistOp (List.range 11) HOp.trim).length < (List.range 11).length
    ∧ HOp.trim ≠ HOp.clear
    ∧ (producerRun (List.range 11) (Attempt.raised [] "400 bad_request")
        (Attempt.raised [] "again 400")).finalHistory = [] := by
  refine ⟨by decide, by decide, by decide⟩

/-- C3 (amended): the stored history of a conversation only ever changes
by appending new turns, by the context-400 trim to a suffix, by the
context-400 reset to empty, or by an explicit clear; its length is
non-decreasing except under trim, reset and clear, and no surviving turn
is ever mutated - every mutation either appends to the existing list or
keeps an untouched suffix of it. -/
theorem claim_C3_history_append_only (h : List Turn) (op : HOp) :
    (∀ msgs, applyHistOp h (HOp.extend msgs) = h ++ msgs)
    ∧ ((applyHistOp h op).length < h.length →
        op = HOp.trim ∨ op = HOp.reset ∨ op = HOp.clear)
    ∧ (applyHistOp h op <:+ h ∨
        ∃ msgs, op = HOp.extend msgs ∧ applyHistOp h op = h ++ msgs) := by
  refine ⟨fun msgs => rfl, ?_, ?_⟩
  · intro hlt
    cases op with
    | extend msgs =>
      exfalso
      simp only [applyHistOp, List.length_append] at hlt
      omega
    | trim => exact Or.inl rfl
    | reset => exact Or.inr (Or.inl rfl)
    | clear => exact Or.inr (Or.inr rfl)
  · cases op with
    | extend msgs => exact Or.inr ⟨msgs, rfl, rfl⟩
    | trim => exact Or.inl (List.drop_suffix _ _)
    | reset => exact Or.inl ⟨h, by simp [applyHistOp]⟩
    | clear => exact Or.inl ⟨h, by simp [applyHistOp]⟩

/-- C3, witness: the reset operation shrinks a singleton history, and is
one of the three shrinking operations. -/
theorem claim_C3_witness :
    HOp.reset = HOp.trim ∨ HOp.reset = HOp.reset ∨ HOp.reset = HOp.clear :=
  (claim_C3_history_append_only [0] HOp.reset).2.1 (by decide)

/-- C5, counterexample.  The teardown of `stream_agent_message` never
awaits the heartbeat task (it only cancels it), and it uninstalls the
Status Channel context as its very first action, before either task is
cancelled or awaited - not after both are confirmed stopped. -/
theorem claim_C5_counterexample :
    TAction.awaitTask OrchTask.heartbeat ∉ (streamAgentRun []).2
    ∧ (streamAgentRun []).2.head? = some TAction.resetStatusChannel := by
  refine ⟨by decide, rfl⟩

/-- C5 (amended): on every exit of `stream_agent_message` the `finally`
block runs the same teardown: it first uninstalls the Status Channel
context, then cancels the heartbeat task, then cancels the producer task,
and awaits only the producer task; the heartbeat is cancelled but never
awaited. -/
theorem claim_C5_teardown (qs : List QItem) :
    (streamAgentRun qs).2
        = [TAction.resetStatusChannel, TAction.cancelTask OrchTask.heartbeat,
            TAction.cancelTask OrchTask.producer,
            TAction.awaitTask OrchTask.producer]
    ∧ TAction.cancelTask OrchTask.heartbeat ∈ (streamAgentRun qs).2
    ∧ TAction.cancelTask OrchTask.producer ∈ (streamAgentRun qs).2
    ∧ TAction.awaitTask OrchTask.producer ∈ (streamAgentRun qs).2
    ∧ TAction.awaitTask OrchTask.heartbeat ∉ (streamAgentRun qs).2 := by
  refine ⟨rfl, ?_, ?_, ?_, ?_⟩
  · show TAction.cancelTask OrchTask.heartbeat ∈ teardownActions
    decide
  · show TAction.cancelTask OrchTask.producer ∈ teardownActions
    decide
  · show TAction.awaitTask OrchTask.producer ∈ teardownActions
    decide
  · show TAction.awaitTask OrchTask.heartbeat ∉ teardownActions
    decide

/-- C5, witness: the amended teardown statement at a concrete queue. -/
theorem claim_C5_witness :
    (streamAgentRun [QItem.sentinel]).2
        = [TAction.resetStatusChannel, TAction.cancelTask OrchTask.heartbeat,
            TAction.cancelTask OrchTask.producer,
            TAction.awaitTask OrchTask.producer]
    ∧ TAction.cancelTask OrchTask.heartbeat ∈ (streamAgentRun [QItem.sentinel]).2
    ∧ TAction.cancelTask OrchTask.producer ∈ (streamAgentRun [QItem.sentinel]).2
    ∧ TAction.awaitTask OrchTask.producer ∈ (streamAgentRun [QItem.sentinel]).2
    ∧ TAction.awaitTask OrchTask.heartbeat ∉ (streamAgentRun [QItem.sentinel]).2 :=
  claim_C5_teardown [QItem.sentinel]

/-- C6: the summarization policy.  A history of at most
`AGENT_SUMMARIZE_AFTER` turns passes through unchanged; on a longer
history whose summarizer call fails or times out, the result is exactly
the most recent `AGENT_KEEP_RECENT` turns - the function is total, so it
never raises, and the failed path drops every older turn. -/
theorem claim_C6_summarize_fallback
    (summ : List Turn → Option (List Turn)) (messages : List Turn) :
    (messages.length ≤ AGENT_SUMMARIZE_AFTER →
      summarize_old_messages summ messages = messages)
    ∧ (AGENT_SUMMARIZE_AFTER < messages.length →
        summ (messages.take (messages.length - AGENT_KEEP_RECENT)) = none →
        summarize_old_messages summ messages
            = messages.drop (messages.length - AGENT_KEEP_RECENT)
          ∧ (messages.drop (messages.length - AGENT_KEEP_RECENT)).length
              = AGENT_KEEP_RECENT) := by
  constructor
  · intro hle
    simp [summarize_old_messages, hle]
  · intro hgt hnone
    constructor
    · unfold summarize_old_messages
      rw [if_neg (Nat.not_le.mpr hgt)]
      simp only [hnone]
    · rw [List.length_drop]
      simp only [AGENT_SUMMARIZE_AFTER, AGENT_KEEP_RECENT] at hgt ⊢
      omega

/-- C6, witness: on 101 turns with an always-failing summarizer, the
result is the 10-turn suffix. -/
theorem claim_C6_witness :
    summarize_old_messages (fun _ => none) (List.replicate 101 0)
        = (List.replicate 101 0).drop
            ((List.replicate 101 0).length - AGENT_KEEP_RECENT)
    ∧ ((List.replicate 101 0).drop
          ((List.replicate 101 0).length - AGENT_KEEP_RECENT)).length
        = AGENT_KEEP_RECENT :=
  (claim_C6_summarize_fallback (fun _ => none) (List.replicate 101 0)).2
    (by simp [AGENT_SUMMARIZE_AFTER]) rfl

/-- C7, counterexample.  A lone pipe-delimited line with no surrounding
table is not passed through as ordinary text: the state machine consumes
it as a header row and drops it from the output entirely. -/
theorem claim_C7_counterexample :
    strip_tables "|a|b|" = "" ∧ strip_tables "|a|b|" ≠ "|a|b|" := by
  refine ⟨by decide, by decide⟩

/-- C7 (amended): `strip_tables` rewrites the concrete table of the claim
into a single bulleted line containing `h1` and `v1` with no pipe-table
syntax left, and passes any input consisting only of non-table lines
(lines that after stripping are neither separator rows nor
pipe-delimited rows) through unchanged; pipe-delimited lines, however,
are always consumed by the table rewriter - as a dropped header row or
an emitted bullet - even when no complete table surrounds them. -/
theorem claim_C7_table_rewriting :
    strip_tables "a\n|h1|h2|\n|--|--|\n|v1|v2|\n"
        = "a\n- **h1:** v1, **h2:** v2\n"
    ∧ '|' ∉ (strip_tables "a\n|h1|h2|\n|--|--|\n|v1|v2|\n").data
    ∧ (∀ s : String,
        (∀ l ∈ splitOnChar '\n' s.data, plainLine l) → strip_tables s = s) := by
  refine ⟨by decide, by decide, strip_tables_of_plain⟩

/-- C7, witness: a two-line table-free input passes through unchanged. -/
theorem claim_C7_witness : strip_tables "hello\nworld" = "hello\nworld" :=
  claim_C7_table_rewriting.2.2 "hello\nworld" (by decide)

/-- C8: `strip_tables` is idempotent.  Every line it emits is either an
original non-table line or a bullet, and neither is a separator row or a
pipe-delimited row, so a second pass leaves the output unchanged. -/
theorem claim_C8_strip_tables_idempotent (s : String) :
    strip_tables (strip_tables s) = strip_tables s := by
  have hlines : ∀ l ∈ splitOnChar '\n' s.data, '\n' ∉ l :=
    fun l hl => mem_splitOnChar_no_sep hl
  have hout := processLines_out (splitOnChar '\n' s.data) hlines false []
    (by intro p hp; exact absurd hp (List.not_mem_nil p))
  cases hcase : processLines false [] (splitOnChar '\n' s.data) with
  | nil =>
    have h1 : strip_tables s = String.mk [] := by
      unfold strip_tables
      rw [hcase]
      rfl
    rw [h1]
    decide
  | cons l ls =>
    have h1 : strip_tables s = String.mk (joinOnChar '\n' (l :: ls)) := by
      unfold strip_tables
      rw [hcase]
    have hfree : ∀ x ∈ l :: ls, '\n' ∉ x :=
      fun x hx => (hout x (by rw [hcase]; exact hx)).2
    have hplain : ∀ x ∈ l :: ls, plainLine x :=
      fun x hx => (hout x (by rw [hcase]; exact hx)).1
    rw [h1]
    unfold strip_tables
    have hdata : (String.mk (joinOnChar '\n' (l :: ls))).data
        = joinOnChar '\n' (l :: ls) := rfl
    rw [hdata, splitOnChar_joinOnChar '\n' (l :: ls) (by simp) hfree,
      processLines_plain (l :: ls) hplain false []]

/-- C9: evaluation of the code at the failing input of the tool-boundary
claim.  `get_upcoming_ctfs` raises a `KeyError` past its boundary when
`fetch_upcoming_events()` returns an event dictionary without a `title`
key, because `ev["title"]` is read outside any `try`; the other cited
tool, `web_search`, does return a string on every outcome, including
`"No results found."` on an empty result set. -/
theorem claim_C9_tool_error_containment :
    getUpcomingCtfs (fun _ => none)
        (Except.ok (some [⟨none, some 1, none, none, none, none, none,
          none, none⟩]))
        = Except.error "KeyError: title"
    ∧ web_search (SearchOutcome.results []) = "No results found."
    ∧ web_search SearchOutcome.timeout = "Search timed out. Try a shorter query."
    ∧ (∀ e, web_search (SearchOutcome.failure e) = "Search failed: " ++ e) := by
  refine ⟨rfl, rfl, rfl, fun e => rfl⟩

/-- C10: buffered mode under its 45-second deadline.  When the deadline
fires (all suspension points lie inside the model call, before any
history mutation) the stored history is returned exactly as it was and
the reply is the timeout string; on the success path the new turns are
appended and the formatted output is returned. -/
theorem claim_C10_buffered_timeout_no_append (hist : List Turn)
    (output : String) (newMsgs : List Turn) :
    handle_agent_message hist none = (hist, "took too long, try again")
    ∧ handle_agent_message hist (some (output, newMsgs))
        = (hist ++ newMsgs, strip_tables output) :=
  ⟨rfl, rfl⟩

end DiscordBot
